import Mathlib

/-!
Shallow embedding of the `lattice` Go package (`lattice.go`): a compact,
Z-order encoded multidimensional address type `Addr [4]uint64`.

Bit layout (from the source):
  - bits 0-3:   number of dimensions (max 15)
  - bits 4-243: Z-order interleaved coordinates (20 bits each)

Go machine integers are modelled as `Nat` (for the uint64 words: every
operation performed on a word only ORs in a single bit below position 64,
so no word ever reaches `2^64` and wraparound can never occur) and as
`Int` (for the Go `int` coordinate inputs, which may be negative before
validation).  Go panics are modelled as `Except AddrError`.
-/

namespace Lattice

/-- `BitsPerCoord = 20`, bits used per coordinate. -/
def BitsPerCoord : Nat := 20

/-- `MaxDimensions = 12`, maximum number of dimensions supported. -/
def MaxDimensions : Nat := 12

/-- `MaxCoordValue = (1 << BitsPerCoord) - 1 = 1048575`, as a Go `int`. -/
def MaxCoordValue : Int := ((1 <<< BitsPerCoord : Nat) : Int) - 1

/-- `Addr [4]uint64`: four 64-bit storage words. -/
structure Addr where
  w0 : Nat
  w1 : Nat
  w2 : Nat
  w3 : Nat
deriving DecidableEq, Repr

/-- `a[i]` for word index `i`.  In Go an index outside `0..3` panics; the
claims about bounds (C9) are stated arithmetically on the computed index,
and the total model returns `0` there. -/
def Addr.getWord (a : Addr) : Nat → Nat
  | 0 => a.w0
  | 1 => a.w1
  | 2 => a.w2
  | 3 => a.w3
  | _ => 0

/-- `addr[arrayIdx] |= 1 << bitInWord` with `arrayIdx = pos / 64`,
`bitInWord = pos % 64` (source lines 50-52).  The encoder only ever
reaches word indices `0..3` (proved in C9). -/
def Addr.setBit (a : Addr) (pos : Nat) : Addr :=
  match pos / 64 with
  | 0 => { a with w0 := a.w0 ||| (1 <<< (pos % 64)) }
  | 1 => { a with w1 := a.w1 ||| (1 <<< (pos % 64)) }
  | 2 => { a with w2 := a.w2 ||| (1 <<< (pos % 64)) }
  | _ => { a with w3 := a.w3 ||| (1 <<< (pos % 64)) }

/-- `(a[arrayIdx]>>bitInWord)&1 == 1` with `arrayIdx = pos / 64`,
`bitInWord = pos % 64` (source lines 76-79). -/
def Addr.testBitAt (a : Addr) (pos : Nat) : Bool :=
  ((a.getWord (pos / 64)) >>> (pos % 64)) &&& 1 == 1

/-- `Dims`: `int(a[0] & 0xF)`. -/
def Addr.Dims (a : Addr) : Nat := a.w0 &&& 0xF

/-- `encodedBitPos := 4 + bitPos*numDims + dimIdx` (source line 47 / 75). -/
def encodedBitPos (numDims bitPos dimIdx : Nat) : Nat :=
  4 + bitPos * numDims + dimIdx

/-- The failure surface: Go `panic`s, with their diagnostic payloads.
Each constructor carries exactly the data the corresponding panic message
formats.  The dimension-limit panic is
`"lattice: max %d dimensions supported"` with `MaxDimensions` (source line
29): it reports only the limit, not the requested count. -/
inductive AddrError where
  | dimensionLimitExceeded (limit : Nat)
  | coordinateOutOfRange (index : Nat) (value maxValue : Int)
  | indexOutOfRange (index : Int) (dims : Nat)
  | bufferTooSmall (needed given : Nat)
  | rangeInvalid (fromIdx toIdx : Int) (dims : Nat)
deriving DecidableEq, Repr

/-- The validation test `v < 0 || v > MaxCoordValue` (source line 33). -/
def badCoord (v : Int) : Bool := v < 0 || v > MaxCoordValue

/-- The validation loop `for i, v := range coords` (source lines 32-36):
first offending index/value, if any. -/
def firstBad (i : Nat) : List Int → Option (Nat × Int)
  | [] => none
  | v :: rest => if badCoord v then some (i, v) else firstBad (i + 1) rest

/-- `bit := (coords[dimIdx] >> bitPos) & 1` (source line 45); the encoder
only runs on validated, hence non-negative, coordinates. -/
def coordBit (coords : List Int) (dimIdx bitPos : Nat) : Nat :=
  ((coords.getD dimIdx 0).toNat >>> bitPos) &&& 1

/-- Body of the encoder's inner loop (source lines 45-53). -/
def encodeStep (coords : List Int) (numDims : Nat) (a : Addr) (bitPos dimIdx : Nat) : Addr :=
  if coordBit coords dimIdx bitPos = 1 then a.setBit (encodedBitPos numDims bitPos dimIdx)
  else a

/-- The encoder's nested loops, `bitPos` outer over `0..19`, `dimIdx`
inner over `0..numDims-1` (source lines 43-55). -/
def encodeLoop (coords : List Int) (numDims : Nat) (a0 : Addr) : Addr :=
  (List.range BitsPerCoord).foldl (fun a bitPos =>
    (List.range numDims).foldl (fun a dimIdx =>
      encodeStep coords numDims a bitPos dimIdx) a) a0

/-- `New(coords ...int) Addr` (source lines 27-58): length check, range
check, then `addr[0] = uint64(len(coords))` and the interleaving loops. -/
def New (coords : List Int) : Except AddrError Addr :=
  if coords.length > MaxDimensions then
    .error (.dimensionLimitExceeded MaxDimensions)
  else
    match firstBad 0 coords with
    | some (i, v) => .error (.coordinateOutOfRange i v MaxCoordValue)
    | none => .ok (encodeLoop coords coords.length ⟨coords.length, 0, 0, 0⟩)

/-- Body of the decoder's inner loop (source lines 75-81):
`coords[dimIdx] |= 1 << bitPos` when the stored bit is set. -/
def decodeStep (a : Addr) (dims : Nat) (buf : List Nat) (bitPos dimIdx : Nat) : List Nat :=
  if a.testBitAt (encodedBitPos dims bitPos dimIdx) then
    buf.set dimIdx (buf.getD dimIdx 0 ||| (1 <<< bitPos))
  else buf

/-- The decoder's nested loops (source lines 73-83). -/
def decodeLoop (a : Addr) (dims : Nat) (buf0 : List Nat) : List Nat :=
  (List.range BitsPerCoord).foldl (fun buf bitPos =>
    (List.range dims).foldl (fun buf dimIdx =>
      decodeStep a dims buf bitPos dimIdx) buf) buf0

/-- `Coords() ([MaxDimensions]int, int)` (source lines 68-86): decode into
a zero-initialised 12-element buffer, return it with `dims`.  The decoded
values are non-negative, so the buffer is `List Nat`. -/
def Addr.Coords (a : Addr) : List Nat × Nat :=
  (decodeLoop a a.Dims (List.replicate MaxDimensions 0), a.Dims)

/-- The copy loop `for i { dst[i] = src[i] }` shared by `CoordsSlice` and
`With` (source lines 98-100 and 214-216). -/
def copyLoop (src : List Nat) (dims : Nat) (dst : List Int) : List Int :=
  (List.range dims).foldl (fun b i => b.set i ((src.getD i 0 : Int))) dst

/-- `CoordsSlice(buf []int) []int` (source lines 91-103): length check,
`buf = buf[:dims]`, copy loop. -/
def Addr.CoordsSlice (a : Addr) (buf : List Int) : Except AddrError (List Int) :=
  let cd := a.Coords
  if buf.length < cd.2 then .error (.bufferTooSmall cd.2 buf.length)
  else .ok (copyLoop cd.1 cd.2 (buf.take cd.2))

/-- `At(dimIdx int) int` (source lines 122-129). -/
def Addr.At (a : Addr) (dimIdx : Int) : Except AddrError Int :=
  let cd := a.Coords
  if dimIdx < 0 || dimIdx ≥ (cd.2 : Int) then .error (.indexOutOfRange dimIdx cd.2)
  else .ok ((cd.1.getD dimIdx.toNat 0 : Int))

/-- `Contains(bAddr Addr) bool` (source lines 133-151). -/
def Addr.Contains (a b : Addr) : Bool :=
  if a.Dims > b.Dims then false
  else
    let ac := (a.Coords).1
    let bc := (b.Coords).1
    (List.range a.Dims).all (fun i => ac.getD i 0 == bc.getD i 0)

/-- `Equal(bAddr Addr) bool`: `a == bAddr`, i.e. the `[4]uint64` values
are identical word for word (source lines 154-156). -/
def Addr.Equal (a b : Addr) : Bool :=
  a.w0 == b.w0 && a.w1 == b.w1 && a.w2 == b.w2 && a.w3 == b.w3

/-- The `InRange` loop over `ranges` with early `break` when the index
reaches `dims` (source lines 162-172). -/
def inRangeLoop (ac : List Nat) (dims : Nat) : Nat → List (Int × Int) → Bool
  | _, [] => true
  | idx, r :: rest =>
    if idx ≥ dims then true
    else if r.1 != -1 && ((ac.getD idx 0 : Int) < r.1) then false
    else if r.2 != -1 && ((ac.getD idx 0 : Int) > r.2) then false
    else inRangeLoop ac dims (idx + 1) rest

/-- `InRange(ranges ...[2]int) bool` (source lines 160-175). -/
def Addr.InRange (a : Addr) (ranges : List (Int × Int)) : Bool :=
  let cd := a.Coords
  inRangeLoop cd.1 cd.2 0 ranges

/-- `IsZero() bool` (source lines 178-187). -/
def Addr.IsZero (a : Addr) : Bool :=
  let cd := a.Coords
  (List.range cd.2).all (fun i => cd.1.getD i 0 == 0)

/-- `With(dimIdx, value int) Addr` (source lines 207-221): bounds check,
copy the decoded coordinates, overwrite index `dimIdx`, re-encode. -/
def Addr.With (a : Addr) (dimIdx : Int) (value : Int) : Except AddrError Addr :=
  let cd := a.Coords
  if dimIdx < 0 || dimIdx ≥ (cd.2 : Int) then .error (.indexOutOfRange dimIdx cd.2)
  else New ((copyLoop cd.1 cd.2 (List.replicate cd.2 0)).set dimIdx.toNat value)

/-- A coordinate list the encoder accepts: at most 12 entries, each in
`[0, MaxCoordValue]`. -/
def validCoords (coords : List Int) : Prop :=
  coords.length ≤ MaxDimensions ∧ ∀ v ∈ coords, 0 ≤ v ∧ v ≤ MaxCoordValue

/-! Proof infrastructure: explicit views of the encoder / decoder loops. -/

/-- The encoder's inner loop, truncated to `dimIdx < m` (proof view). -/
def encodeInner (coords : List Int) (numDims bitPos m : Nat) (a : Addr) : Addr :=
  (List.range m).foldl (fun a dimIdx => encodeStep coords numDims a bitPos dimIdx) a

/-- The decoder's inner loop, truncated to `dimIdx < m` (proof view). -/
def decodeInner (a : Addr) (dims bitPos m : Nat) (buf : List Nat) : List Nat :=
  (List.range m).foldl (fun b dimIdx => decodeStep a dims b bitPos dimIdx) buf

/-- OR of the decoded bit contributions to coordinate `j` over bit
positions `< n` (proof view of what the decoder accumulates). -/
def orBits (a : Addr) (d j : Nat) : Nat → Nat
  | 0 => 0
  | n + 1 =>
    orBits a d j n ||| (if j < d ∧ a.testBitAt (encodedBitPos d n j) then 1 <<< n else 0)

end Lattice

namespace Lattice

/-! Word- and bit-level lemmas. -/

theorem testBitAt_eq (a : Addr) (pos : Nat) :
    a.testBitAt pos = (a.getWord (pos / 64)).testBit (pos % 64) := by
  simp [Addr.testBitAt, Nat.testBit_to_div_mod, Nat.shiftRight_eq_div_pow,
    Nat.and_one_is_mod, Bool.beq_eq_decide_eq]

theorem getWord_mk_hi (d : Nat) (j : Nat) (hj : 1 ≤ j) :
    (Addr.mk d 0 0 0).getWord j = 0 := by
  rcases j with _ | _ | _ | _ | j
  · omega
  · rfl
  · rfl
  · rfl
  · rfl

theorem getWord_setBit (a : Addr) {p : Nat} (hp : p < 256) (j : Nat) :
    (a.setBit p).getWord j =
      if j = p / 64 then a.getWord j ||| (1 <<< (p % 64)) else a.getWord j := by
  have h : p / 64 = 0 ∨ p / 64 = 1 ∨ p / 64 = 2 ∨ p / 64 = 3 := by omega
  unfold Addr.setBit
  rcases h with h | h | h | h <;> rw [h] <;>
    rcases j with _ | _ | _ | _ | j <;>
    simp [Addr.getWord]

theorem testBitAt_setBit (a : Addr) {p : Nat} (hp : p < 256) (q : Nat) :
    (a.setBit p).testBitAt q = (decide (q = p) || a.testBitAt q) := by
  rw [testBitAt_eq, testBitAt_eq, getWord_setBit a hp]
  by_cases h : q / 64 = p / 64
  · rw [if_pos h, Nat.testBit_or]
    have h2 : (1 <<< (p % 64)).testBit (q % 64) = decide (p % 64 = q % 64) := by
      rw [Nat.shiftLeft_eq, Nat.one_mul, Nat.testBit_two_pow]
    rw [h2]
    have h3 : decide (p % 64 = q % 64) = decide (q = p) :=
      decide_eq_decide.mpr ⟨fun h4 => by omega, fun h4 => by omega⟩
    rw [h3, Bool.or_comm]
  · rw [if_neg h]
    have h4 : ¬(q = p) := by omega
    simp [h4]

theorem encodedBitPos_le {d p i : Nat} (hd : d ≤ 12) (hp : p < 20) (hi : i < d) :
    encodedBitPos d p i ≤ 243 := by
  unfold encodedBitPos
  have h1 : p * d ≤ 19 * 12 := Nat.mul_le_mul (by omega) hd
  omega

theorem pos_inj {d p i p' i' : Nat} (hi : i < d) (hi' : i' < d)
    (h : encodedBitPos d p i = encodedBitPos d p' i') : p = p' ∧ i = i' := by
  unfold encodedBitPos at h
  have h' : i + p * d = i' + p' * d := by omega
  have h1 : (i + p * d) / d = p := by
    rw [Nat.add_mul_div_right _ _ (by omega : 0 < d), Nat.div_eq_of_lt hi]
    omega
  have h2 : (i' + p' * d) / d = p' := by
    rw [Nat.add_mul_div_right _ _ (by omega : 0 < d), Nat.div_eq_of_lt hi']
    omega
  have h3 : p = p' := by rw [← h1, ← h2, h']
  subst h3
  omega

theorem coordBit_le_one (coords : List Int) (i p : Nat) : coordBit coords i p ≤ 1 := by
  unfold coordBit
  rw [Nat.and_one_is_mod]
  omega

theorem coordBit_eq (coords : List Int) (i p : Nat) :
    (coordBit coords i p == 1) = (coords.getD i 0).toNat.testBit p := by
  simp [coordBit, Nat.testBit_to_div_mod, Nat.shiftRight_eq_div_pow,
    Nat.and_one_is_mod, Bool.beq_eq_decide_eq]

theorem beq_comm_decide (x y : Nat) : (x == y) = decide (y = x) := by
  rw [Bool.beq_eq_decide_eq]
  exact decide_eq_decide.mpr ⟨fun h => h.symm, fun h => h.symm⟩

theorem testBitAt_encodeInner (coords : List Int) (d p : Nat) (m : Nat)
    (hpos : ∀ i, i < m → encodedBitPos d p i < 256) (a : Addr) (q : Nat) :
    (encodeInner coords d p m a).testBitAt q =
      (((List.range m).any fun i =>
          coordBit coords i p == 1 && encodedBitPos d p i == q) || a.testBitAt q) := by
  induction m with
  | zero => simp [encodeInner]
  | succ m ih =>
    have hsplit : encodeInner coords d p (m + 1) a =
        encodeStep coords d (encodeInner coords d p m a) p m := by
      simp [encodeInner, List.range_succ]
    rw [hsplit, List.range_succ, List.any_append]
    unfold encodeStep
    by_cases hb : coordBit coords m p = 1
    · rw [if_pos hb, testBitAt_setBit _ (hpos m (by omega)),
        ih (fun i hi => hpos i (by omega))]
      simp only [hb, List.any_cons, List.any_nil, beq_comm_decide, Bool.or_false]
      cases h1 : decide (q = encodedBitPos d p m) <;>
        cases h2 : ((List.range m).any fun i =>
          coordBit coords i p == 1 && encodedBitPos d p i == q) <;>
        cases h3 : a.testBitAt q <;> simp_all
    · have h0 : coordBit coords m p = 0 := by
        have := coordBit_le_one coords m p
        omega
      rw [if_neg hb, ih (fun i hi => hpos i (by omega))]
      simp [h0]

theorem testBitAt_encodeOuter (coords : List Int) (d : Nat) (hd : d ≤ 12)
    (n : Nat) (hn : n ≤ 20) (a : Addr) (q : Nat) :
    ((List.range n).foldl (fun a p => encodeInner coords d p d a) a).testBitAt q =
      (((List.range n).any fun p => (List.range d).any fun i =>
          coordBit coords i p == 1 && encodedBitPos d p i == q) || a.testBitAt q) := by
  induction n with
  | zero => simp
  | succ n ih =>
    rw [List.range_succ, List.foldl_append, List.any_append]
    simp only [List.foldl_cons, List.foldl_nil, List.any_cons, List.any_nil, Bool.or_false]
    have hpos : ∀ i, i < d → encodedBitPos d n i < 256 := fun i hi =>
      Nat.lt_of_le_of_lt (encodedBitPos_le hd (by omega) hi) (by omega)
    rw [testBitAt_encodeInner coords d n d hpos _ q, ih (by omega)]
    cases h1 : ((List.range d).any fun i =>
        coordBit coords i n == 1 && encodedBitPos d n i == q) <;>
      cases h2 : ((List.range n).any fun p => (List.range d).any fun i =>
        coordBit coords i p == 1 && encodedBitPos d p i == q) <;>
      cases h3 : a.testBitAt q <;> simp_all

theorem testBitAt_encodeLoop (coords : List Int) (d : Nat) (hd : d ≤ 12)
    (a0 : Addr) (q : Nat) :
    (encodeLoop coords d a0).testBitAt q =
      (((List.range 20).any fun p => (List.range d).any fun i =>
          coordBit coords i p == 1 && encodedBitPos d p i == q) || a0.testBitAt q) := by
  have h : encodeLoop coords d a0 =
      (List.range 20).foldl (fun a p => encodeInner coords d p d a) a0 := rfl
  rw [h]
  exact testBitAt_encodeOuter coords d hd 20 (Nat.le_refl 20) a0 q

theorem testBitAt_header (d : Nat) (hd : d ≤ 12) (q : Nat) (hq : 4 ≤ q) :
    (Addr.mk d 0 0 0).testBitAt q = false := by
  rw [testBitAt_eq]
  by_cases h : q / 64 = 0
  · rw [h]
    have hq64 : q % 64 = q := Nat.mod_eq_of_lt (by omega)
    rw [hq64]
    show Nat.testBit d q = false
    apply Nat.testBit_lt_two_pow
    have h16 : (16 : Nat) ≤ 2 ^ q := by
      calc (16 : Nat) = 2 ^ 4 := by norm_num
      _ ≤ 2 ^ q := Nat.pow_le_pow_right (by omega) hq
    omega
  · rw [getWord_mk_hi d (q / 64) (by omega)]
    exact Nat.zero_testBit _

theorem testBitAt_encodeLoop_pos (coords : List Int) (d : Nat) (hd : d ≤ 12)
    (p0 i0 : Nat) (hp : p0 < 20) (hi : i0 < d) :
    (encodeLoop coords d ⟨d, 0, 0, 0⟩).testBitAt (encodedBitPos d p0 i0) =
      (coords.getD i0 0).toNat.testBit p0 := by
  rw [testBitAt_encodeLoop coords d hd _ _,
    testBitAt_header d hd _ (by unfold encodedBitPos; omega), Bool.or_false,
    ← coordBit_eq]
  by_cases hb : coordBit coords i0 p0 = 1
  · rw [hb]
    apply List.any_eq_true.mpr
    refine ⟨p0, List.mem_range.mpr hp, ?_⟩
    apply List.any_eq_true.mpr
    refine ⟨i0, List.mem_range.mpr hi, ?_⟩
    simp [hb]
  · have h0 : coordBit coords i0 p0 = 0 := by
      have := coordBit_le_one coords i0 p0
      omega
    rw [h0, show ((0 : Nat) == 1) = false from rfl]
    apply List.any_eq_false.mpr
    intro p hp'
    rw [Bool.not_eq_true]
    apply List.any_eq_false.mpr
    intro i hi'
    intro hcontra
    rw [Bool.and_eq_true] at hcontra
    have heq : encodedBitPos d p i = encodedBitPos d p0 i0 := by
      have := hcontra.2
      simpa using this
    have hii : i < d := List.mem_range.mp hi'
    obtain ⟨hpp, hiq⟩ := pos_inj hii hi heq
    subst hpp
    subst hiq
    rw [h0] at hcontra
    simp at hcontra

theorem Dims_encodeLoop (coords : List Int) (d : Nat) (hd : d ≤ 12) :
    (encodeLoop coords d ⟨d, 0, 0, 0⟩).Dims = d := by
  unfold Addr.Dims
  apply Nat.eq_of_testBit_eq
  intro q
  rw [Nat.testBit_and]
  have h15 : (0xF : Nat).testBit q = decide (q < 4) := by
    have h : (0xF : Nat) = 2 ^ 4 - 1 := by norm_num
    rw [h, Nat.testBit_two_pow_sub_one]
  rw [h15]
  by_cases hq : q < 4
  · have hw : ((encodeLoop coords d ⟨d, 0, 0, 0⟩).w0).testBit q =
        (encodeLoop coords d ⟨d, 0, 0, 0⟩).testBitAt q := by
      rw [testBitAt_eq]
      have h1 : q / 64 = 0 := by omega
      have h2 : q % 64 = q := Nat.mod_eq_of_lt (by omega)
      rw [h1, h2]
      rfl
    rw [hw, testBitAt_encodeLoop coords d hd _ _]
    have hany : ((List.range 20).any fun p => (List.range d).any fun i =>
        coordBit coords i p == 1 && encodedBitPos d p i == q) = false := by
      apply List.any_eq_false.mpr
      intro p _
      rw [Bool.not_eq_true]
      apply List.any_eq_false.mpr
      intro i _
      intro hcontra
      rw [Bool.and_eq_true] at hcontra
      have := hcontra.2
      have hne : encodedBitPos d p i ≠ q := by unfold encodedBitPos; omega
      simp [hne] at this
    rw [hany, Bool.false_or]
    have hq64 : q % 64 = q := Nat.mod_eq_of_lt (by omega)
    rw [testBitAt_eq, show q / 64 = 0 from by omega, hq64]
    simp [Addr.getWord, hq]
  · have hdq : decide (q < 4) = false := by simp [hq]
    rw [hdq, Bool.and_false]
    have h16 : (16 : Nat) ≤ 2 ^ q := by
      calc (16 : Nat) = 2 ^ 4 := by norm_num
      _ ≤ 2 ^ q := Nat.pow_le_pow_right (by omega) (by omega)
    have hlt : d < 2 ^ q := by omega
    exact (Nat.testBit_lt_two_pow hlt).symm

/-! Decoder lemmas. -/

theorem orBits_zero (a : Addr) (d j : Nat) : orBits a d j 0 = 0 := rfl

theorem orBits_succ (a : Addr) (d j n : Nat) :
    orBits a d j (n + 1) =
      orBits a d j n |||
        (if j < d ∧ a.testBitAt (encodedBitPos d n j) then 1 <<< n else 0) := rfl

theorem getD_set_self {α : Type} (l : List α) (i : Nat) (hi : i < l.length) (v d : α) :
    (l.set i v).getD i d = v := by
  simp [List.getD_eq_getElem?_getD, List.getElem?_set_eq_of_lt v hi]

theorem getD_set_ne {α : Type} (l : List α) (i j : Nat) (hij : i ≠ j) (v d : α) :
    (l.set i v).getD j d = l.getD j d := by
  simp [List.getD_eq_getElem?_getD, List.getElem?_set_ne hij]

theorem length_decodeInner (a : Addr) (d p m : Nat) (buf : List Nat) :
    (decodeInner a d p m buf).length = buf.length := by
  induction m with
  | zero => rfl
  | succ m ih =>
    have hsplit : decodeInner a d p (m + 1) buf =
        decodeStep a d (decodeInner a d p m buf) p m := by
      simp [decodeInner, List.range_succ]
    rw [hsplit]
    unfold decodeStep
    by_cases hb : a.testBitAt (encodedBitPos d p m) <;> simp [hb, ih]

theorem getD_decodeInner (a : Addr) (d p : Nat) (m : Nat) (buf : List Nat)
    (hm : m ≤ buf.length) (j : Nat) :
    (decodeInner a d p m buf).getD j 0 =
      if j < m ∧ a.testBitAt (encodedBitPos d p j) then buf.getD j 0 ||| (1 <<< p)
      else buf.getD j 0 := by
  induction m with
  | zero => simp [decodeInner]
  | succ m ih =>
    have hsplit : decodeInner a d p (m + 1) buf =
        decodeStep a d (decodeInner a d p m buf) p m := by
      simp [decodeInner, List.range_succ]
    rw [hsplit]
    unfold decodeStep
    have hplen : (decodeInner a d p m buf).length = buf.length :=
      length_decodeInner a d p m buf
    have ihm := ih (by omega)
    by_cases hb : a.testBitAt (encodedBitPos d p m)
    · rw [if_pos hb]
      by_cases hj : j = m
      · subst hj
        rw [getD_set_self _ _ (by omega) _, ihm]
        have hnlt : ¬(j < j) := by omega
        simp [hnlt, hb]
      · rw [getD_set_ne _ _ _ (fun h => hj h.symm) _, ihm]
        have hiff : (j < m + 1 ∧ a.testBitAt (encodedBitPos d p j)) ↔
            (j < m ∧ a.testBitAt (encodedBitPos d p j)) := by
          constructor <;> intro h <;> exact ⟨by omega, h.2⟩
        by_cases hc : j < m ∧ a.testBitAt (encodedBitPos d p j)
        · rw [if_pos hc, if_pos (hiff.mpr hc)]
        · rw [if_neg hc, if_neg (fun h => hc (hiff.mp h))]
    · rw [if_neg hb, ihm]
      by_cases hj : j = m
      · subst hj
        have h1 : ¬(j < j ∧ a.testBitAt (encodedBitPos d p j)) := fun h => by omega
        have h2 : ¬(j < j + 1 ∧ a.testBitAt (encodedBitPos d p j)) := fun h => hb h.2
        rw [if_neg h1, if_neg h2]
      · have hiff : (j < m + 1 ∧ a.testBitAt (encodedBitPos d p j)) ↔
            (j < m ∧ a.testBitAt (encodedBitPos d p j)) := by
          constructor <;> intro h <;> exact ⟨by omega, h.2⟩
        by_cases hc : j < m ∧ a.testBitAt (encodedBitPos d p j)
        · rw [if_pos hc, if_pos (hiff.mpr hc)]
        · rw [if_neg hc, if_neg (fun h => hc (hiff.mp h))]

theorem length_decodeOuter (a : Addr) (d n : Nat) (buf : List Nat) :
    ((List.range n).foldl (fun b p => decodeInner a d p d b) buf).length = buf.length := by
  induction n with
  | zero => rfl
  | succ n ih =>
    rw [List.range_succ, List.foldl_append]
    simp only [List.foldl_cons, List.foldl_nil]
    rw [length_decodeInner, ih]

theorem getD_decodeOuter (a : Addr) (d : Nat) (n : Nat) (buf : List Nat)
    (hd : d ≤ buf.length) (j : Nat) :
    ((List.range n).foldl (fun b p => decodeInner a d p d b) buf).getD j 0 =
      buf.getD j 0 ||| orBits a d j n := by
  induction n with
  | zero => simp [orBits]
  | succ n ih =>
    rw [List.range_succ, List.foldl_append]
    simp only [List.foldl_cons, List.foldl_nil]
    have hflen : ((List.range n).foldl (fun b p => decodeInner a d p d b) buf).length =
        buf.length := length_decodeOuter a d n buf
    rw [getD_decodeInner a d n d _ (by omega) j, ih, orBits_succ]
    by_cases hc : j < d ∧ a.testBitAt (encodedBitPos d n j)
    · rw [if_pos hc, if_pos hc, Nat.or_assoc]
    · rw [if_neg hc, if_neg hc, Nat.or_zero]

theorem getD_replicate_zero (n j : Nat) : (List.replicate n (0 : Nat)).getD j 0 = 0 := by
  rw [List.getD_eq_getElem?_getD, List.getElem?_replicate]
  split <;> rfl

theorem coords_fst_eq (a : Addr) :
    (a.Coords).1 = (List.range 20).foldl (fun b p => decodeInner a a.Dims p a.Dims b)
      (List.replicate 12 0) := rfl

theorem getD_coords (a : Addr) (hd : a.Dims ≤ 12) (j : Nat) :
    (a.Coords).1.getD j 0 = orBits a a.Dims j 20 := by
  rw [coords_fst_eq,
    getD_decodeOuter a a.Dims 20 (List.replicate 12 0) (by simpa using hd) j,
    getD_replicate_zero, Nat.zero_or]

theorem length_coords (a : Addr) : (a.Coords).1.length = 12 := by
  rw [coords_fst_eq, length_decodeOuter]
  simp

theorem testBit_orBits (a : Addr) (d j : Nat) (n : Nat) (q : Nat) :
    (orBits a d j n).testBit q =
      (decide (q < n) && decide (j < d) && a.testBitAt (encodedBitPos d q j)) := by
  induction n with
  | zero => simp [orBits_zero]
  | succ n ih =>
    rw [orBits_succ, Nat.testBit_or, ih]
    have hite : (if j < d ∧ a.testBitAt (encodedBitPos d n j) then 1 <<< n else 0).testBit q
        = (decide (q = n) && decide (j < d) && a.testBitAt (encodedBitPos d n j)) := by
      by_cases hc : j < d ∧ a.testBitAt (encodedBitPos d n j)
      · rw [if_pos hc, Nat.shiftLeft_eq, Nat.one_mul, Nat.testBit_two_pow]
        have hcomm : decide (n = q) = decide (q = n) :=
          decide_eq_decide.mpr ⟨Eq.symm, Eq.symm⟩
        simp [hcomm, hc.1, hc.2]
      · rw [if_neg hc, Nat.zero_testBit]
        by_cases hj : j < d
        · have hb : a.testBitAt (encodedBitPos d n j) = false := by
            cases h : a.testBitAt (encodedBitPos d n j)
            · rfl
            · exact absurd ⟨hj, h⟩ hc
          simp [hb]
        · simp [hj]
    rw [hite]
    by_cases hq : q = n
    · subst hq
      have e1 : decide (q < q) = false := by simp
      have e2 : decide (q = q) = true := by simp
      have e3 : decide (q < q + 1) = true := by simp
      rw [e1, e2, e3]
      simp
    · have h3 : decide (q < n + 1) = decide (q < n) :=
        decide_eq_decide.mpr ⟨fun h => by omega, fun h => by omega⟩
      rw [h3]
      simp [hq]

theorem orBits_ge (a : Addr) (d j : Nat) (hj : ¬j < d) (n : Nat) :
    orBits a d j n = 0 := by
  induction n with
  | zero => rfl
  | succ n ih =>
    rw [orBits_succ, ih, if_neg (fun h => hj h.1), Nat.or_zero]

/-! Validation lemmas. -/

theorem maxCoordValue_eq : MaxCoordValue = 1048575 := by decide

theorem badCoord_false_iff (v : Int) : badCoord v = false ↔ 0 ≤ v ∧ v ≤ MaxCoordValue := by
  unfold badCoord
  rw [maxCoordValue_eq]
  simp only [Bool.or_eq_false_iff, decide_eq_false_iff_not]
  omega

theorem firstBad_none_of (coords : List Int) (h : ∀ v ∈ coords, badCoord v = false) :
    ∀ i, firstBad i coords = none := by
  induction coords with
  | nil => intro i; rfl
  | cons w rest ih =>
    intro i
    unfold firstBad
    rw [h w (List.mem_cons_self w rest)]
    simp only [Bool.false_eq_true, if_false]
    exact ih (fun v hv => h v (List.mem_cons_of_mem w hv)) (i + 1)

theorem firstBad_none_iff (coords : List Int) :
    ∀ i, firstBad i coords = none ↔ ∀ v ∈ coords, badCoord v = false := by
  induction coords with
  | nil => intro i; simp [firstBad]
  | cons w rest ih =>
    intro i
    unfold firstBad
    by_cases hb : badCoord w
    · simp [hb]
    · have hbf : badCoord w = false := by
        cases h : badCoord w
        · rfl
        · exact absurd h hb
      rw [if_neg hb, ih (i + 1)]
      simp [hbf]

theorem firstBad_some_iff (coords : List Int) :
    ∀ i0 j v, firstBad i0 coords = some (j, v) ↔
      ∃ k, j = i0 + k ∧ k < coords.length ∧ coords.getD k 0 = v ∧ badCoord v = true ∧
        ∀ m, m < k → badCoord (coords.getD m 0) = false := by
  induction coords with
  | nil => intro i0 j v; simp [firstBad]
  | cons w rest ih =>
    intro i0 j v
    unfold firstBad
    by_cases hb : badCoord w
    · rw [if_pos hb]
      constructor
      · intro h
        have h1 : i0 = j := congrArg Prod.fst (Option.some.inj h)
        have h2 : w = v := congrArg Prod.snd (Option.some.inj h)
        exact ⟨0, by omega, by simp, by simp [h2], by rw [← h2]; exact hb,
          fun m hm => by omega⟩
      · rintro ⟨k, hk1, hk2, hk3, hk4, hk5⟩
        cases k with
        | zero =>
          simp only [List.getD_cons_zero] at hk3
          rw [hk3, hk1]
          simp
        | succ k =>
          have h0 := hk5 0 (by omega)
          simp only [List.getD_cons_zero] at h0
          rw [h0] at hb
          simp at hb
    · have hbf : badCoord w = false := by
        cases h : badCoord w
        · rfl
        · exact absurd h hb
      rw [if_neg hb, ih (i0 + 1) j v]
      constructor
      · rintro ⟨k, hk1, hk2, hk3, hk4, hk5⟩
        refine ⟨k + 1, by omega, by simp; omega, by simpa using hk3, hk4, ?_⟩
        intro m hm
        cases m with
        | zero => simpa using hbf
        | succ m => simpa using hk5 m (by omega)
      · rintro ⟨k, hk1, hk2, hk3, hk4, hk5⟩
        cases k with
        | zero =>
          simp only [List.getD_cons_zero] at hk3
          rw [hk3] at hbf
          rw [hk4] at hbf
          exact absurd hbf (by simp)
        | succ k =>
          refine ⟨k, by omega, by simpa using hk2, by simpa using hk3, hk4, ?_⟩
          intro m hm
          simpa using hk5 (m + 1) (by omega)

/-! Encoder round-trip lemmas. -/

theorem New_ok_eq (coords : List Int) (h : validCoords coords) :
    New coords = .ok (encodeLoop coords coords.length ⟨coords.length, 0, 0, 0⟩) := by
  unfold New
  rw [if_neg (Nat.not_lt.mpr h.1),
    firstBad_none_of coords (fun v hv => (badCoord_false_iff v).mpr (h.2 v hv)) 0]

theorem New_ok_valid (coords : List Int) (a : Addr) (h : New coords = .ok a) :
    validCoords coords := by
  unfold New at h
  by_cases h1 : coords.length > MaxDimensions
  · rw [if_pos h1] at h
    exact absurd h (by simp)
  · rw [if_neg h1] at h
    cases h2 : firstBad 0 coords with
    | some iv =>
      rw [h2] at h
      exact absurd h (by simp)
    | none =>
      refine ⟨Nat.le_of_not_lt h1, ?_⟩
      intro v hv
      exact (badCoord_false_iff v).mp (((firstBad_none_iff coords 0).mp h2) v hv)

theorem New_ok_elim (coords : List Int) (a : Addr) (h : New coords = .ok a) :
    a = encodeLoop coords coords.length ⟨coords.length, 0, 0, 0⟩ := by
  have hv := New_ok_valid coords a h
  rw [New_ok_eq coords hv] at h
  exact (Except.ok.inj h).symm

theorem Dims_New (coords : List Int) (a : Addr) (h : New coords = .ok a) :
    a.Dims = coords.length := by
  rw [New_ok_elim coords a h]
  exact Dims_encodeLoop coords coords.length (New_ok_valid coords a h).1

theorem getD_mem_of_lt (coords : List Int) (j : Nat) (hj : j < coords.length) :
    coords.getD j 0 ∈ coords := by
  rw [List.getD_eq_getElem?_getD, List.getElem?_eq_getElem hj]
  exact List.getElem_mem hj

theorem toNat_lt_two_pow (v : Int) (h0 : 0 ≤ v) (hle : v ≤ MaxCoordValue) :
    v.toNat < 2 ^ 20 := by
  rw [maxCoordValue_eq] at hle
  have hpow : (2 : Nat) ^ 20 = 1048576 := by norm_num
  omega

theorem Coords_New (coords : List Int) (a : Addr) (h : New coords = .ok a) :
    (a.Coords).2 = coords.length ∧
      (∀ j, j < coords.length → (a.Coords).1.getD j 0 = (coords.getD j 0).toNat) ∧
      (∀ j, coords.length ≤ j → (a.Coords).1.getD j 0 = 0) := by
  have hv := New_ok_valid coords a h
  have hd12 : coords.length ≤ 12 := hv.1
  have hDims := Dims_New coords a h
  have he := New_ok_elim coords a h
  refine ⟨hDims, ?_, ?_⟩
  · intro j hj
    rw [getD_coords a (by omega), hDims]
    apply Nat.eq_of_testBit_eq
    intro q
    rw [testBit_orBits]
    by_cases hq : q < 20
    · have hbit : a.testBitAt (encodedBitPos coords.length q j) =
          (coords.getD j 0).toNat.testBit q := by
        rw [he]
        exact testBitAt_encodeLoop_pos coords coords.length hd12 q j hq hj
      simp [hq, hj, hbit]
    · have h1 : decide (q < 20) = false := by simp [hq]
      rw [h1, Bool.false_and, Bool.false_and]
      obtain ⟨hge0, hle⟩ := hv.2 _ (getD_mem_of_lt coords j hj)
      have hlt := toNat_lt_two_pow _ hge0 hle
      have h2q : (2 : Nat) ^ 20 ≤ 2 ^ q := Nat.pow_le_pow_right (by omega) (by omega)
      exact (Nat.testBit_lt_two_pow (by omega)).symm
  · intro j hj
    rw [getD_coords a (by omega)]
    exact orBits_ge a a.Dims j (by omega) 20

/-! Per-operation helper lemmas. -/

theorem Equal_eq_iff (a b : Addr) : a.Equal b = true ↔ a = b := by
  cases a
  cases b
  simp [Addr.Equal, Addr.mk.injEq, Bool.and_eq_true, and_assoc]

theorem list_ext_getD (l1 l2 : List Int) (hlen : l1.length = l2.length)
    (h : ∀ j, j < l1.length → l1.getD j 0 = l2.getD j 0) : l1 = l2 := by
  apply List.ext_getElem hlen
  intro i h1 h2
  have hi := h i h1
  rw [List.getD_eq_getElem?_getD, List.getD_eq_getElem?_getD,
    List.getElem?_eq_getElem h1, List.getElem?_eq_getElem h2] at hi
  simpa using hi

theorem Contains_iff (a b : Addr) :
    a.Contains b = true ↔
      (a.Dims ≤ b.Dims ∧
        ∀ i, i < a.Dims → (a.Coords).1.getD i 0 = (b.Coords).1.getD i 0) := by
  unfold Addr.Contains
  by_cases h : a.Dims > b.Dims
  · rw [if_pos h]
    constructor
    · intro hfalse
      exact absurd hfalse (by simp)
    · intro hc
      omega
  · rw [if_neg h]
    simp only [List.all_eq_true, List.mem_range]
    constructor
    · intro hall
      refine ⟨by omega, fun i hi => ?_⟩
      have := hall i hi
      simpa using this
    · rintro ⟨-, hcoord⟩ i hi
      simpa using hcoord i hi

theorem New_not_indexError (cs : List Int) (i : Int) (d : Nat) :
    New cs ≠ .error (.indexOutOfRange i d) := by
  unfold New
  by_cases h : cs.length > MaxDimensions
  · rw [if_pos h]
    simp
  · rw [if_neg h]
    cases hfb : firstBad 0 cs with
    | some iv =>
      cases iv
      simp
    | none => simp

theorem forall_mem_of_getD {P : Int → Prop} (l : List Int)
    (h : ∀ j, j < l.length → P (l.getD j 0)) : ∀ w ∈ l, P w := by
  intro w hw
  obtain ⟨j, hj, hjw⟩ := List.getElem_of_mem hw
  have hP := h j hj
  rw [List.getD_eq_getElem?_getD, List.getElem?_eq_getElem hj] at hP
  simpa [hjw] using hP

theorem length_copyLoop (src : List Nat) (m : Nat) (dst : List Int) :
    (copyLoop src m dst).length = dst.length := by
  induction m with
  | zero => rfl
  | succ m ih =>
    have hsplit : copyLoop src (m + 1) dst =
        (copyLoop src m dst).set m ((src.getD m 0 : Int)) := by
      simp [copyLoop, List.range_succ]
    rw [hsplit, List.length_set, ih]

theorem getD_copyLoop (src : List Nat) (m : Nat) (dst : List Int)
    (hm : m ≤ dst.length) (j : Nat) :
    (copyLoop src m dst).getD j 0 =
      if j < m then ((src.getD j 0 : Int)) else dst.getD j 0 := by
  induction m with
  | zero => simp [copyLoop]
  | succ m ih =>
    have hsplit : copyLoop src (m + 1) dst =
        (copyLoop src m dst).set m ((src.getD m 0 : Int)) := by
      simp [copyLoop, List.range_succ]
    rw [hsplit]
    have hlen : (copyLoop src m dst).length = dst.length := length_copyLoop src m dst
    by_cases hj : j = m
    · subst hj
      rw [getD_set_self _ _ (by omega) _ _, if_pos (by omega)]
    · rw [getD_set_ne _ _ _ (fun hc => hj hc.symm) _ _, ih (by omega)]
      by_cases hc : j < m
      · rw [if_pos hc, if_pos (by omega)]
      · rw [if_neg hc, if_neg (by omega)]

theorem inRangeLoop_iff (ac : List Nat) (dims : Nat) (ranges : List (Int × Int)) :
    ∀ idx, inRangeLoop ac dims idx ranges = true ↔
      ∀ k, k < ranges.length → idx + k < dims →
        (((ranges.getD k (0, 0)).1 ≠ -1 →
            (ranges.getD k (0, 0)).1 ≤ ((ac.getD (idx + k) 0 : Int))) ∧
         ((ranges.getD k (0, 0)).2 ≠ -1 →
            ((ac.getD (idx + k) 0 : Int)) ≤ (ranges.getD k (0, 0)).2)) := by
  induction ranges with
  | nil =>
    intro idx
    simp [inRangeLoop]
  | cons r rest ih =>
    intro idx
    unfold inRangeLoop
    by_cases h1 : idx ≥ dims
    · rw [if_pos h1]
      constructor
      · intro _ k hk hlt
        omega
      · intro _
        rfl
    · rw [if_neg h1]
      by_cases hmin : (r.1 != -1 && decide ((ac.getD idx 0 : Int) < r.1)) = true
      · rw [if_pos hmin]
        simp only [Bool.and_eq_true, bne_iff_ne, decide_eq_true_eq] at hmin
        constructor
        · intro hfalse
          exact absurd hfalse (by simp)
        · intro hall
          have h0 := hall 0 (by simp) (by omega)
          simp only [List.getD_cons_zero, Nat.add_zero] at h0
          have := h0.1 hmin.1
          omega
      · rw [if_neg hmin]
        by_cases hmax : (r.2 != -1 && decide ((ac.getD idx 0 : Int) > r.2)) = true
        · rw [if_pos hmax]
          simp only [Bool.and_eq_true, bne_iff_ne, decide_eq_true_eq] at hmax
          constructor
          · intro hfalse
            exact absurd hfalse (by simp)
          · intro hall
            have h0 := hall 0 (by simp) (by omega)
            simp only [List.getD_cons_zero, Nat.add_zero] at h0
            have := h0.2 hmax.1
            omega
        · rw [if_neg hmax, ih (idx + 1)]
          have hmin' : r.1 ≠ -1 → r.1 ≤ (ac.getD idx 0 : Int) := by
            intro hne
            by_cases hlt : (ac.getD idx 0 : Int) < r.1
            · have hcontra : (r.1 != -1 && decide ((ac.getD idx 0 : Int) < r.1)) = true := by
                rw [Bool.and_eq_true]
                exact ⟨bne_iff_ne.mpr hne, decide_eq_true hlt⟩
              exact absurd hcontra hmin
            · omega
          have hmax' : r.2 ≠ -1 → (ac.getD idx 0 : Int) ≤ r.2 := by
            intro hne
            by_cases hlt : (ac.getD idx 0 : Int) > r.2
            · have hcontra : (r.2 != -1 && decide ((ac.getD idx 0 : Int) > r.2)) = true := by
                rw [Bool.and_eq_true]
                exact ⟨bne_iff_ne.mpr hne, decide_eq_true hlt⟩
              exact absurd hcontra hmax
            · omega
          constructor
          · intro hrest k hk hlt
            cases k with
            | zero =>
              simp only [List.getD_cons_zero, Nat.add_zero]
              exact ⟨hmin', hmax'⟩
            | succ k =>
              have hr := hrest k (by simpa using hk) (by omega)
              rw [show idx + 1 + k = idx + (k + 1) from by omega] at hr
              simpa using hr
          · intro hall k hk hlt
            have hr := hall (k + 1) (by simpa using hk) (by omega)
            rw [show idx + (k + 1) = idx + 1 + k from by omega] at hr
            simpa using hr

theorem badCoord_true_iff (v : Int) : badCoord v = true ↔ v < 0 ∨ MaxCoordValue < v := by
  unfold badCoord
  rw [maxCoordValue_eq]
  simp only [Bool.or_eq_true, decide_eq_true_eq]

/-! The claims. -/

/-- C1: for every coordinate sequence of length at most 12 with elements in
`[0, 1048575]`, `Coords` after `New` reproduces the sequence exactly: the
returned count is the length, and the first `length` buffer entries equal
the input coordinates elementwise. -/
theorem C1_round_trip (coords : List Int) (hlen : coords.length ≤ MaxDimensions)
    (hval : ∀ v ∈ coords, 0 ≤ v ∧ v ≤ MaxCoordValue) :
    ∃ a, New coords = .ok a ∧ (a.Coords).2 = coords.length ∧
      ∀ j, j < coords.length → ((a.Coords).1.getD j 0 : Int) = coords.getD j 0 := by
  have hv : validCoords coords := ⟨hlen, hval⟩
  have hok := New_ok_eq coords hv
  refine ⟨_, hok, (Coords_New coords _ hok).1, ?_⟩
  intro j hj
  rw [(Coords_New coords _ hok).2.1 j hj]
  exact Int.toNat_of_nonneg (hval _ (getD_mem_of_lt coords j hj)).1

/-- Witness for C1 at `coords = [1, 2, 3]`. -/
theorem C1_round_trip_witness :
    ∃ a, New [1, 2, 3] = .ok a ∧ (a.Coords).2 = ([1, 2, 3] : List Int).length ∧
      ∀ j, j < ([1, 2, 3] : List Int).length →
        ((a.Coords).1.getD j 0 : Int) = ([1, 2, 3] : List Int).getD j 0 :=
  C1_round_trip [1, 2, 3] (by decide) (by decide)

/-- C2: for valid coordinate sequences `a` and `b`, the encodings are
bit-identical as `[4]uint64` values (exactly what `Equal` compares) iff the
sequences have the same length and agree elementwise (i.e. are equal as
lists). -/
theorem C2_injectivity (ca cb : List Int) (a b : Addr)
    (ha : New ca = .ok a) (hb : New cb = .ok b) :
    a.Equal b = true ↔ ca = cb := by
  rw [Equal_eq_iff]
  constructor
  · intro hab
    have hlen : ca.length = cb.length := by
      rw [← Dims_New ca a ha, ← Dims_New cb b hb, hab]
    apply list_ext_getD ca cb hlen
    intro j hj
    have h1 := (Coords_New ca a ha).2.1 j hj
    have h2 := (Coords_New cb b hb).2.1 j (by omega)
    rw [hab] at h1
    have htn : (ca.getD j 0).toNat = (cb.getD j 0).toNat := by rw [← h1, ← h2]
    have e1 := (New_ok_valid ca a ha).2 _ (getD_mem_of_lt ca j hj)
    have e2 := (New_ok_valid cb b hb).2 _ (getD_mem_of_lt cb j (by omega))
    omega
  · intro h
    subst h
    rw [ha] at hb
    rw [Except.ok.inj hb]

/-- Witness for C2 at `ca = cb = [1, 2]`, whose encoding is the concrete
word pattern `{146, 0, 0, 0}`. -/
theorem C2_injectivity_witness :
    (Addr.mk 146 0 0 0).Equal (Addr.mk 146 0 0 0) = true ↔
      ([1, 2] : List Int) = [1, 2] :=
  C2_injectivity [1, 2] [1, 2] _ _ rfl rfl

/-- C3 (amended): `New` validates in order: the dimension-limit error,
reporting only the limit 12 (the panic message does not include the
requested count), occurs exactly when more than 12 coordinates are given;
otherwise the out-of-range error occurs exactly when some element is
negative or exceeds 1048575, and it reports the first offending index with
its value; otherwise `New` succeeds. -/
theorem C3_validation_order (coords : List Int) :
    (New coords = .error (.dimensionLimitExceeded MaxDimensions) ↔
      coords.length > MaxDimensions) ∧
    ((∃ i v, New coords = .error (.coordinateOutOfRange i v MaxCoordValue)) ↔
      (coords.length ≤ MaxDimensions ∧ ∃ v ∈ coords, v < 0 ∨ MaxCoordValue < v)) ∧
    (∀ i v, New coords = .error (.coordinateOutOfRange i v MaxCoordValue) →
      i < coords.length ∧ coords.getD i 0 = v ∧ (v < 0 ∨ MaxCoordValue < v) ∧
        ∀ m, m < i → 0 ≤ coords.getD m 0 ∧ coords.getD m 0 ≤ MaxCoordValue) ∧
    ((∃ a, New coords = .ok a) ↔
      (coords.length ≤ MaxDimensions ∧ ∀ v ∈ coords, 0 ≤ v ∧ v ≤ MaxCoordValue)) := by
  refine ⟨?_, ?_, ?_, ?_⟩
  · by_cases h : coords.length > MaxDimensions
    · refine iff_of_true ?_ h
      unfold New
      rw [if_pos h]
    · refine iff_of_false ?_ h
      unfold New
      rw [if_neg h]
      cases hfb : firstBad 0 coords with
      | some iv =>
        cases iv
        simp
      | none => simp
  · constructor
    · rintro ⟨i, v, h⟩
      by_cases hl : coords.length > MaxDimensions
      · unfold New at h
        rw [if_pos hl] at h
        simp at h
      · refine ⟨by omega, ?_⟩
        unfold New at h
        rw [if_neg hl] at h
        cases hfb : firstBad 0 coords with
        | some iv =>
          obtain ⟨j, w⟩ := iv
          rw [hfb] at h
          simp only [Except.error.injEq, AddrError.coordinateOutOfRange.injEq] at h
          obtain ⟨hji, hwv, -⟩ := h
          obtain ⟨k, hk0, hk1, hk2, hk3, -⟩ := (firstBad_some_iff coords 0 j w).mp hfb
          refine ⟨v, ?_, ?_⟩
          · rw [← hwv, ← hk2]
            exact getD_mem_of_lt coords k hk1
          · rw [← hwv]
            exact (badCoord_true_iff w).mp hk3
        | none =>
          rw [hfb] at h
          simp at h
    · rintro ⟨hlen, v, hv, hbad⟩
      unfold New
      rw [if_neg (by omega)]
      cases hfb : firstBad 0 coords with
      | some iv =>
        obtain ⟨j, w⟩ := iv
        exact ⟨j, w, rfl⟩
      | none =>
        have hall := (firstBad_none_iff coords 0).mp hfb
        have := (badCoord_false_iff v).mp (hall v hv)
        rw [maxCoordValue_eq] at hbad this
        omega
  · intro i v h
    by_cases hl : coords.length > MaxDimensions
    · unfold New at h
      rw [if_pos hl] at h
      simp at h
    · unfold New at h
      rw [if_neg hl] at h
      cases hfb : firstBad 0 coords with
      | some iv =>
        obtain ⟨j, w⟩ := iv
        rw [hfb] at h
        simp only [Except.error.injEq, AddrError.coordinateOutOfRange.injEq] at h
        obtain ⟨hji, hwv, -⟩ := h
        obtain ⟨k, hk0, hk1, hk2, hk3, hk4⟩ := (firstBad_some_iff coords 0 j w).mp hfb
        have hki : k = i := by omega
        subst hki
        refine ⟨hk1, by rw [hk2, hwv], by rw [← hwv]; exact (badCoord_true_iff w).mp hk3, ?_⟩
        intro m hm
        exact (badCoord_false_iff _).mp (hk4 m hm)
      | none =>
        rw [hfb] at h
        simp at h
  · constructor
    · rintro ⟨a, ha⟩
      exact New_ok_valid coords a ha
    · rintro ⟨h1, h2⟩
      exact ⟨_, New_ok_eq coords ⟨h1, h2⟩⟩

/-- Witness for C3: a 13-element sequence fails with the dimension-limit
error reporting the limit 12. -/
theorem C3_validation_order_witness :
    New (List.replicate 13 (0 : Int)) =
      .error (.dimensionLimitExceeded MaxDimensions) :=
  (C3_validation_order (List.replicate 13 0)).1.mpr (by decide)

/-- Counterexample for C3 as originally stated: the dimension-limit error
does not report the requested count.  A 13-element and a 14-element input
produce bit-identical errors (Go panics with
`"lattice: max 12 dimensions supported"` in both cases, as its own
`TestNew_PanicMessage` pins), so the error payload cannot report the
requested count. -/
theorem C3_validation_order_counterexample :
    New (List.replicate 13 (0 : Int)) = New (List.replicate 14 (0 : Int)) ∧
      New (List.replicate 13 (0 : Int)) =
        .error (.dimensionLimitExceeded MaxDimensions) := by
  exact ⟨rfl, rfl⟩

theorem coords_snd (a : Addr) : (a.Coords).2 = a.Dims := rfl

/-- C4: for addresses built by `New`, `Contains` is true iff the receiver's
dimension count is at most the argument's and the decoded coordinates agree
on every index below the receiver's dimension count; a 0-dimension address
contains every address including itself; the relation is not symmetric in
general. -/
theorem C4_contains (ca cb : List Int) (a b : Addr)
    (ha : New ca = .ok a) (hb : New cb = .ok b) :
    (a.Contains b = true ↔
      (a.Dims ≤ b.Dims ∧
        ∀ i, i < a.Dims → (a.Coords).1.getD i 0 = (b.Coords).1.getD i 0)) ∧
    (a.Dims = 0 → (a.Contains b = true ∧ a.Contains a = true)) ∧
    (¬ ∀ x y : Addr, x.Contains y = true → y.Contains x = true) := by
  refine ⟨Contains_iff a b, ?_, ?_⟩
  · intro h0
    constructor
    · exact (Contains_iff a b).mpr ⟨by omega, fun i hi => by omega⟩
    · exact (Contains_iff a a).mpr ⟨Nat.le_refl _, fun i hi => rfl⟩
  · intro hall
    have h1 : (Addr.mk 146 0 0 0).Contains (Addr.mk 851 0 0 0) = true := by decide
    have h2 := hall _ _ h1
    exact absurd h2 (by decide)

/-- Witness for C4: `New [1,2] = {146,0,0,0}` contains `New [1,2,3] =
{851,0,0,0}`. -/
theorem C4_contains_witness :
    (Addr.mk 146 0 0 0).Contains (Addr.mk 851 0 0 0) = true :=
  ((C4_contains [1, 2] [1, 2, 3] _ _ rfl rfl).1).mpr (by decide)

/-- C5: `InRange` is true iff, for every index below both the number of
ranges and the dimension count, the decoded coordinate satisfies the lower
bound (unless it is the sentinel `-1`) and the upper bound (unless it is
the sentinel `-1`); dimensions beyond the ranges pass unchecked and range
entries beyond the dimension count are ignored. -/
theorem C5_inRange (coords : List Int) (a : Addr) (ha : New coords = .ok a)
    (ranges : List (Int × Int)) :
    a.InRange ranges = true ↔
      ∀ k, k < ranges.length → k < (a.Coords).2 →
        (((ranges.getD k (0, 0)).1 ≠ -1 →
            (ranges.getD k (0, 0)).1 ≤ ((a.Coords).1.getD k 0 : Int)) ∧
         ((ranges.getD k (0, 0)).2 ≠ -1 →
            ((a.Coords).1.getD k 0 : Int) ≤ (ranges.getD k (0, 0)).2)) := by
  simp only [Addr.InRange]
  rw [inRangeLoop_iff (a.Coords).1 (a.Coords).2 ranges 0]
  constructor <;> intro h k hk1 hk2
  · have hr := h k hk1 (by omega)
    simpa using hr
  · have hr := h k hk1 (by omega)
    simpa using hr

/-- Witness for C5: all-wildcard ranges accept `New [10,20,30] =
{440963,0,0,0}`. -/
theorem C5_inRange_witness :
    (Addr.mk 440963 0 0 0).InRange [(-1, -1), (-1, -1), (-1, -1)] = true :=
  (C5_inRange [10, 20, 30] _ rfl _).mpr (by decide)

/-- C6: `CoordsSlice` fails with the buffer-too-small error, reporting the
needed count `Dims` and the given buffer size, exactly when the buffer is
shorter than `Dims`; otherwise it returns a buffer of length `Dims` holding
the decoded coordinates. -/
theorem C6_coordsSlice (coords : List Int) (a : Addr) (ha : New coords = .ok a)
    (buf : List Int) :
    (buf.length < a.Dims →
      a.CoordsSlice buf = .error (.bufferTooSmall a.Dims buf.length)) ∧
    (a.Dims ≤ buf.length →
      ∃ out, a.CoordsSlice buf = .ok out ∧ out.length = a.Dims ∧
        ∀ j, j < a.Dims → out.getD j 0 = ((a.Coords).1.getD j 0 : Int)) := by
  constructor
  · intro h
    simp only [Addr.CoordsSlice, coords_snd]
    rw [if_pos h]
  · intro h
    simp only [Addr.CoordsSlice, coords_snd]
    rw [if_neg (by omega)]
    refine ⟨_, rfl, ?_, ?_⟩
    · rw [length_copyLoop, List.length_take]
      omega
    · intro j hj
      rw [getD_copyLoop _ _ _ (by rw [List.length_take]; omega) j, if_pos hj]

/-- Witness for C6: a 2-element buffer is too small for `New [1,2,3] =
{851,0,0,0}`, and the error reports needed 3 versus given 2. -/
theorem C6_coordsSlice_witness :
    (Addr.mk 851 0 0 0).CoordsSlice [0, 0] = .error (.bufferTooSmall 3 2) :=
  (C6_coordsSlice [1, 2, 3] _ rfl [0, 0]).1 (by decide)

/-- C7: `With` fails with the index-out-of-range error exactly when the
index is negative or at least `Dims`; for an in-range index and an in-range
value it returns a new address with the same dimension count whose
coordinate at the index equals the value and whose other coordinates equal
the receiver's.  (The receiver itself is unchanged: the Go method takes
`Addr` by value and never writes to it, which the pure embedding reflects
by construction.) -/
theorem C7_with (coords : List Int) (a : Addr) (ha : New coords = .ok a)
    (i v : Int) :
    ((a.With i v = .error (.indexOutOfRange i a.Dims)) ↔
      (i < 0 ∨ (a.Dims : Int) ≤ i)) ∧
    ((0 ≤ i ∧ i < (a.Dims : Int) ∧ 0 ≤ v ∧ v ≤ MaxCoordValue) →
      ∃ a', a.With i v = .ok a' ∧ a'.Dims = a.Dims ∧
        ((a'.Coords).1.getD i.toNat 0 : Int) = v ∧
        ∀ j, j < a.Dims → j ≠ i.toNat →
          (a'.Coords).1.getD j 0 = (a.Coords).1.getD j 0) := by
  have hv := New_ok_valid coords a ha
  have hDims := Dims_New coords a ha
  have hd12 : a.Dims ≤ 12 := by
    rw [hDims]
    exact hv.1
  constructor
  · constructor
    · intro h
      by_cases hc : (decide (i < 0) || decide (i ≥ ((a.Dims : Int)))) = true
      · simp only [Bool.or_eq_true, decide_eq_true_eq] at hc
        omega
      · simp only [Addr.With, coords_snd] at h
        rw [if_neg hc] at h
        exact absurd h (New_not_indexError _ _ _)
    · intro hcond
      have hc : (decide (i < 0) || decide (i ≥ ((a.Dims : Int)))) = true := by
        simp only [Bool.or_eq_true, decide_eq_true_eq]
        omega
      simp only [Addr.With, coords_snd]
      rw [if_pos hc]
  · rintro ⟨hi0, hilt, hv0, hvle⟩
    have hc : ¬(decide (i < 0) || decide (i ≥ ((a.Dims : Int)))) = true := by
      simp only [Bool.or_eq_true, decide_eq_true_eq]
      omega
    simp only [Addr.With, coords_snd]
    rw [if_neg hc]
    have hitoNat : i.toNat < a.Dims := by omega
    have hlenc : (copyLoop (a.Coords).1 a.Dims (List.replicate a.Dims 0)).length = a.Dims := by
      rw [length_copyLoop, List.length_replicate]
    have hlenL :
        ((copyLoop (a.Coords).1 a.Dims (List.replicate a.Dims 0)).set i.toNat v).length
          = a.Dims := by
      rw [List.length_set, hlenc]
    have hgetL : ∀ j, j < a.Dims →
        ((copyLoop (a.Coords).1 a.Dims (List.replicate a.Dims 0)).set i.toNat v).getD j 0 =
          if j = i.toNat then v else ((a.Coords).1.getD j 0 : Int) := by
      intro j hj
      by_cases hji : j = i.toNat
      · subst hji
        rw [getD_set_self _ _ (by omega) _ _, if_pos rfl]
      · rw [getD_set_ne _ _ _ (fun hc' => hji hc'.symm) _ _,
          getD_copyLoop _ _ _ (by rw [List.length_replicate]) j, if_pos hj, if_neg hji]
    have hvalL : validCoords
        ((copyLoop (a.Coords).1 a.Dims (List.replicate a.Dims 0)).set i.toNat v) := by
      constructor
      · rw [hlenL]
        exact hd12
      · apply forall_mem_of_getD
        intro j hj
        rw [hlenL] at hj
        rw [hgetL j hj]
        by_cases hji : j = i.toNat
        · rw [if_pos hji]
          exact ⟨hv0, hvle⟩
        · rw [if_neg hji]
          have hcn := (Coords_New coords a ha).2.1 j (by omega)
          rw [hcn]
          have hmem := hv.2 _ (getD_mem_of_lt coords j (by omega))
          constructor
          · exact Int.natCast_nonneg _
          · rw [Int.toNat_of_nonneg hmem.1]
            exact hmem.2
    have hok := New_ok_eq _ hvalL
    refine ⟨_, hok, ?_, ?_, ?_⟩
    · rw [Dims_New _ _ hok, hlenL]
    · have hcn := (Coords_New _ _ hok).2.1 i.toNat (by rw [hlenL]; omega)
      rw [hcn, hgetL i.toNat (by omega), if_pos rfl]
      exact Int.toNat_of_nonneg hv0
    · intro j hj hji
      have hcn := (Coords_New _ _ hok).2.1 j (by rw [hlenL]; omega)
      rw [hcn, hgetL j hj, if_neg hji]
      exact Int.toNat_natCast _

/-- Witness for C7: replacing coordinate 1 of `New [1,2,3] = {851,0,0,0}`
with 99 succeeds, preserves the dimension count, sets coordinate 1 to 99
and leaves the other coordinates unchanged. -/
theorem C7_with_witness :
    ∃ a', (Addr.mk 851 0 0 0).With 1 99 = .ok a' ∧
      a'.Dims = (Addr.mk 851 0 0 0).Dims ∧
      ((a'.Coords).1.getD (1 : Int).toNat 0 : Int) = 99 ∧
      ∀ j, j < (Addr.mk 851 0 0 0).Dims → j ≠ (1 : Int).toNat →
        (a'.Coords).1.getD j 0 = ((Addr.mk 851 0 0 0).Coords).1.getD j 0 :=
  (C7_with [1, 2, 3] _ rfl 1 99).2 (by decide)

/-- C8: for an address built by `New`, the fixed-capacity decode returns a
12-element buffer together with the count `Dims`, and every buffer entry at
index at least `Dims` is exactly zero. -/
theorem C8_coords_padding (coords : List Int) (a : Addr) (ha : New coords = .ok a) :
    (a.Coords).1.length = 12 ∧ (a.Coords).2 = a.Dims ∧
      ∀ j, a.Dims ≤ j → (a.Coords).1.getD j 0 = 0 := by
  refine ⟨length_coords a, rfl, ?_⟩
  intro j hj
  have hDims := Dims_New coords a ha
  exact (Coords_New coords a ha).2.2 j (by omega)

/-- Witness for C8 at `New [1,2,3] = {851,0,0,0}`. -/
theorem C8_coords_padding_witness :
    ((Addr.mk 851 0 0 0).Coords).1.length = 12 ∧
      ((Addr.mk 851 0 0 0).Coords).2 = (Addr.mk 851 0 0 0).Dims ∧
      ∀ j, (Addr.mk 851 0 0 0).Dims ≤ j →
        ((Addr.mk 851 0 0 0).Coords).1.getD j 0 = 0 :=
  C8_coords_padding [1, 2, 3] _ rfl

/-- C9: every address built by `New` has `Dims ≤ 12`; for any dimension
count at most 12 every bit offset `4 + p*d + i` computed by the encoder and
decoder is at most 243, so every word index is in `0..3`; for a raw header
value of 13, 14 or 15 the decoder computes word index 4, past the end of
the 4-word array. -/
theorem C9_bounds :
    (∀ coords a, New coords = .ok a → a.Dims ≤ MaxDimensions) ∧
    (∀ d p i, d ≤ 12 → p < 20 → i < d →
      encodedBitPos d p i ≤ 243 ∧ encodedBitPos d p i / 64 ≤ 3) ∧
    (∀ d, 13 ≤ d → d ≤ 15 →
      ∃ p i, p < 20 ∧ i < d ∧ encodedBitPos d p i / 64 = 4) := by
  refine ⟨?_, ?_, ?_⟩
  · intro coords a ha
    rw [Dims_New coords a ha]
    exact (New_ok_valid coords a ha).1
  · intro d p i hd hp hi
    have h := encodedBitPos_le hd hp hi
    exact ⟨h, by omega⟩
  · intro d h13 h15
    refine ⟨19, d - 1, by omega, by omega, ?_⟩
    unfold encodedBitPos
    omega

/-- Witness for C9: a header of 13 makes the decoder compute word index 4. -/
theorem C9_bounds_witness :
    ∃ p i, p < 20 ∧ i < 13 ∧ encodedBitPos 13 p i / 64 = 4 :=
  C9_bounds.2.2 13 (by omega) (by omega)

/-- C10: the all-zero bit pattern is exactly `New()` of no coordinates and
behaves as the empty address: `Dims` is 0, `Coords` is an all-zero buffer
with count 0, `IsZero` is true, and it contains itself and every decodable
address. -/
theorem C10_zero_value :
    New [] = .ok (Addr.mk 0 0 0 0) ∧
    (Addr.mk 0 0 0 0).Dims = 0 ∧
    (Addr.mk 0 0 0 0).Coords = (List.replicate 12 0, 0) ∧
    (Addr.mk 0 0 0 0).IsZero = true ∧
    (Addr.mk 0 0 0 0).Contains (Addr.mk 0 0 0 0) = true ∧
    (∀ b : Addr, b.Dims ≤ MaxDimensions → (Addr.mk 0 0 0 0).Contains b = true) := by
  refine ⟨rfl, rfl, rfl, rfl, rfl, ?_⟩
  intro b hb
  exact (Contains_iff (Addr.mk 0 0 0 0) b).mpr
    ⟨Nat.zero_le _, fun i hi => absurd hi (Nat.not_lt_zero i)⟩

/-- Witness for C10: the zero value contains `New [1,2,3] = {851,0,0,0}`. -/
theorem C10_zero_value_witness :
    (Addr.mk 0 0 0 0).Contains (Addr.mk 851 0 0 0) = true :=
  C10_zero_value.2.2.2.2.2 (Addr.mk 851 0 0 0) (by decide)

end Lattice
